import Mathlib

/-!
Verification of the even-g2-protocol repository.

This file shallowly embeds the TypeScript sources:
  * the `G2` bridge client class (`sdk/src/index.ts`, shipped inline after the
    teleprompter example): its pending-request map, `handleMessage`,
    `send`, the WebSocket `onclose` handler, `closeBridge`, `on`/`off`/`emit`;
  * the protobuf helpers of the device-info exploration script
    (`encodeVarint`, `pbVarint`, `pbBytes`, `toHex`, `parseProtobuf`);
  * the frame codec of spec section 4.1, which has no TypeScript source in
    this repository (it lives in the Python bridge), modelled from the spec.

JavaScript bitwise operators coerce to 32-bit integers; we model numbers
produced by those operators as `Int` with explicit wrap-around.
-/

/-! ## JavaScript 32-bit integer semantics -/

/-- ECMAScript ToUint32: the operand modulo 2^32, as a natural number. -/
def toUint32 (n : Int) : Nat := (n % (2 ^ 32 : Int)).toNat

/-- ECMAScript ToInt32: two's-complement reinterpretation of the low 32 bits. -/
def toInt32 (n : Int) : Int :=
  let m := toUint32 n
  if m < 2 ^ 31 then (m : Int) else (m : Int) - 2 ^ 32

/-- JavaScript `a & b` on numbers: bitwise and of the 32-bit images, as int32. -/
def jsAnd (a b : Int) : Int := toInt32 ((Nat.land (toUint32 a) (toUint32 b) : Nat) : Int)

/-- JavaScript `a | b` on numbers: bitwise or of the 32-bit images, as int32. -/
def jsOr (a b : Int) : Int := toInt32 ((Nat.lor (toUint32 a) (toUint32 b) : Nat) : Int)

/-- JavaScript `a << b` for a nonnegative integral shift count `b`:
shift the 32-bit image left by `b mod 32` and reinterpret as int32. -/
def jsShl (a : Int) (b : Nat) : Int :=
  toInt32 (((toUint32 a <<< (b % 32)) % 2 ^ 32 : Nat) : Int)

/-! ## Hex strings

`toHex` is the script's byte-to-hex helper (`b.toString(16).padStart(2, "0")`
joined); `hexToBytes` models `Buffer.from(hex, "hex")`, which consumes pairs
of hex digits and truncates at the first invalid pair or odd trailing digit.
-/

/-- Numeric value of one hex digit character (upper or lower case), if any. -/
def hexVal (c : Char) : Option Nat :=
  if 48 ≤ c.toNat ∧ c.toNat ≤ 57 then some (c.toNat - 48)
  else if 97 ≤ c.toNat ∧ c.toNat ≤ 102 then some (c.toNat - 87)
  else if 65 ≤ c.toNat ∧ c.toNat ≤ 70 then some (c.toNat - 55)
  else none

/-- Two lowercase hex digits of a byte `b < 256`
(`b.toString(16).padStart(2, "0")` of the script's `toHex`). -/
def hexPair (b : Nat) : List Char := [Nat.digitChar (b / 16), Nat.digitChar (b % 16)]

/-- The script's `toHex`: concatenated two-digit lowercase hex of each byte. -/
def toHex (bytes : List Nat) : String := String.mk ((bytes.map hexPair).flatten)

/-- `Buffer.from(hex, "hex")`: parse hex-digit pairs, truncating at the first
invalid pair or odd trailing digit. -/
def hexToBytes : List Char → List Nat
  | c1 :: c2 :: rest =>
    match hexVal c1, hexVal c2 with
    | some h, some l => (16 * h + l) :: hexToBytes rest
    | _, _ => []
  | _ => []

/-! ## Protobuf helpers of the device-info script -/

/-- `encodeVarint` from the device-info script:
```
while (value > 0x7f) { result.push((value & 0x7f) | 0x80); value >>= 7; }
result.push(value & 0x7f);
```
The script only calls it with nonnegative integers below 2^28, on which the
JavaScript int32 operators agree with the `Nat` operators used here. -/
def encodeVarint (value : Nat) : List Nat :=
  if h : value > 0x7f then ((value &&& 0x7f) ||| 0x80) :: encodeVarint (value >>> 7)
  else [value &&& 0x7f]
termination_by value
decreasing_by
  simp only [Nat.shiftRight_eq_div_pow]
  exact Nat.div_lt_self (by omega) (by norm_num)

/-- `pbVarint(field, value)` of the script: `[(field << 3) | 0, ...encodeVarint(value)]`. -/
def pbVarint (field value : Nat) : List Nat := ((field <<< 3) ||| 0) :: encodeVarint value

/-- `pbBytes(field, data)` of the script:
`[(field << 3) | 2, ...encodeVarint(data.length), ...data]`. -/
def pbBytes (field : Nat) (data : List Nat) : List Nat :=
  (((field <<< 3) ||| 2) :: encodeVarint data.length) ++ data

/-! ## `parseProtobuf` -/

/-- One parsed field record pushed by `parseProtobuf`. `varint` values are
JavaScript int32 accumulations, hence `Int`; a `bytes` record stores the
`length` field exactly as computed (it can be negative after int32 overflow). -/
inductive PBField where
  | varint (field : Nat) (value : Int)
  | bytes (field : Nat) (hex : String) (str : Option String) (length : Int)
  | fixed32 (field : Nat) (value : Nat)
  | fixed64 (field : Nat) (value : String)
deriving DecidableEq

/-- Result of running `parseProtobuf` to completion: the returned field list,
or an exception escaping from a `Buffer` read (`ERR_OUT_OF_RANGE`). -/
inductive PResult where
  | fields (fs : List PBField)
  | err
deriving DecidableEq

/-- `bytes[pos]` on a `Buffer` for an integer index: `undefined` (here `none`)
when the index is negative or past the end. -/
def getByte (bytes : List Nat) (pos : Int) : Option Nat :=
  if 0 ≤ pos then bytes[pos.toNat]? else none

/-- `Uint8Array.subarray(start, end)`: negative indices count from the end,
both bounds clamp to `[0, length]`, empty when `end ≤ start`. -/
def subarrayJs (bytes : List Nat) (start endI : Int) : List Nat :=
  let len : Int := bytes.length
  let s := if start < 0 then max (len + start) 0 else min start len
  let e := if endI < 0 then max (len + endI) 0 else min endI len
  (bytes.drop s.toNat).take (e - s).toNat

/-- `Buffer.readUInt32LE(pos)`: little-endian u32, `none` models the
`ERR_OUT_OF_RANGE` exception when `pos` is not in `[0, length - 4]`. -/
def readUInt32LE (bytes : List Nat) (pos : Int) : Option Nat :=
  if 0 ≤ pos ∧ pos.toNat + 4 ≤ bytes.length then
    some (bytes.getD pos.toNat 0 + 256 * bytes.getD (pos.toNat + 1) 0 +
      65536 * bytes.getD (pos.toNat + 2) 0 + 16777216 * bytes.getD (pos.toNat + 3) 0)
  else none

/-- `Buffer.readBigUInt64LE(pos)`: little-endian u64, `none` models the
out-of-range exception. -/
def readBigUInt64LE (bytes : List Nat) (pos : Int) : Option Nat :=
  if 0 ≤ pos ∧ pos.toNat + 8 ≤ bytes.length then
    some (List.range 8 |>.foldr (fun i acc => acc * 256 + bytes.getD (pos.toNat + i) 0) 0)
  else none

/-- The varint-reading inner loop of `parseProtobuf`:
```
let value = 0, shift = 0;
while (pos < bytes.length) {
  const b = bytes[pos++];
  value |= (b & 0x7f) << shift;
  shift += 7;
  if (!(b & 0x80)) break;
}
```
Each iteration increments `pos` and runs only while `pos < bytes.length`, so
the loop executes at most `bytes.length - pos` times; `readVarintAux`
recurses structurally on exactly that remaining count.  An out-of-bounds read
(negative `pos`) yields `undefined`, whose int32 coercion is `0`, modelled by
`Option.getD 0` (every use of `b` passes through `&`). -/
def readVarintAux (bytes : List Nat) : Nat → Int → Int → Nat → Int × Int
  | 0, pos, value, _ => (value, pos)
  | remaining + 1, pos, value, shift =>
    let bn := (getByte bytes pos).getD 0
    let value' := jsOr value (jsShl ((bn &&& 0x7f : Nat) : Int) shift)
    if bn &&& 0x80 ≠ 0 then readVarintAux bytes remaining (pos + 1) value' (shift + 7)
    else (value', pos + 1)

/-- The varint loop, returning the accumulated value and the updated `pos`. -/
def readVarint (bytes : List Nat) (pos value : Int) (shift : Nat) : Int × Int :=
  readVarintAux bytes ((bytes.length : Int) - pos).toNat pos value shift

/-- Printable-string detection of the wiretype-2 branch:
`data.toString("utf-8")` tested against `/^[\x20-\x7e\r\n\t]+$/`.  A byte
sequence passes exactly when it is nonempty and every byte is printable ASCII
or tab/newline/carriage-return: bytes ≥ 0x80 decode (via UTF-8) to characters
outside `[\x20-\x7e]` or to U+FFFD, which the regex rejects, and single-byte
characters below 0x20 other than 9, 10, 13 are rejected directly. -/
def printableStr (data : List Nat) : Option String :=
  if data ≠ [] ∧ data.all (fun b => (0x20 ≤ b ∧ b ≤ 0x7e) ∨ b = 13 ∨ b = 10 ∨ b = 9) then
    some (String.mk (data.map fun b => Char.ofNat b))
  else none

/-- The main loop of `parseProtobuf`, with an explicit fuel so that
non-termination of the source loop is observable as `none` for every fuel.
`acc` accumulates the `fields` array.  The redundant
`if (pos >= bytes.length) break` at the top of the source loop duplicates the
loop condition and is absorbed into it. -/
def parseLoop (bytes : List Nat) : Nat → Int → List PBField → Option PResult
  | 0, _, _ => none
  | fuel + 1, pos, acc =>
    if pos < (bytes.length : Int) then
      let tag := (getByte bytes pos).getD 0
      let fieldNum := tag >>> 3
      let wireType := tag &&& 7
      if wireType = 0 then
        let r := readVarint bytes (pos + 1) 0 0
        parseLoop bytes fuel r.2 (acc ++ [.varint fieldNum r.1])
      else if wireType = 2 then
        let r := readVarint bytes (pos + 1) 0 0
        let data := subarrayJs bytes r.2 (r.2 + r.1)
        parseLoop bytes fuel (r.2 + r.1)
          (acc ++ [.bytes fieldNum (toHex data) (printableStr data) r.1])
      else if wireType = 5 then
        match readUInt32LE bytes (pos + 1) with
        | none => some .err
        | some v => parseLoop bytes fuel (pos + 1 + 4) (acc ++ [.fixed32 fieldNum v])
      else if wireType = 1 then
        match readBigUInt64LE bytes (pos + 1) with
        | none => some .err
        | some v => parseLoop bytes fuel (pos + 1 + 8) (acc ++ [.fixed64 fieldNum (Nat.repr v)])
      else some (.fields acc)
    else some (.fields acc)

/-- `parseProtobuf(hex)` terminates and produces `r`: some fuel suffices.
(The source loop has no fuel; `none` for every fuel is non-termination.) -/
def ParsesTo (hex : String) (r : List PBField) : Prop :=
  ∃ fuel, parseLoop (hexToBytes hex.data) fuel 0 [] = some (.fields r)

/-! ## The `G2` bridge client

State of one `G2` instance.  JavaScript `Map` iteration follows insertion
order, so the pending map and the listener registry are association lists.
Promise identity is modelled by a ghost token counter: each promise created
by `send` receives the next token, and a `settle` effect on a token stands
for resolving or rejecting that promise.  `usedKeys` is a ghost history of
every key ever registered in the pending map, used to state key freshness.
-/

/-- A JSON object value (`Record<string, unknown>`), abstracted to its
key/value entries; `[]` is the empty object `{}`. -/
abbrev RData := List (String × String)

/-- The `{code, message}` error object of an error response. -/
structure ErrObj where
  code : String
  message : String
deriving DecidableEq

/-- A parsed bridge message.  A field is `none` when the JSON key is absent
(`"event" in msg` is key presence; `msg.id` of a message without `id` is
`undefined` and misses every string key of the pending map). -/
structure Msg where
  eventF : Option String := none
  dataF : Option RData := none
  idF : Option String := none
  errorF : Option ErrObj := none
  resultF : Option RData := none
deriving DecidableEq

/-- A raw inbound WebSocket chunk: either a string that `JSON.parse` rejects,
or one that parses to a message. -/
inductive Raw where
  | malformed
  | msg (m : Msg)
deriving DecidableEq

/-- How a `send` promise is settled. -/
inductive Outcome where
  | resolved (r : RData)
  | rejected (err : String)
deriving DecidableEq

/-- Observable effects of one operation of the client. -/
inductive Effect where
  | settle (tok : Nat) (out : Outcome)
  | emit (ev : String) (data : RData) (handlers : List Nat)
  | wsSend (id : String) (method : String) (params : Option RData)
deriving DecidableEq

/-- `Error` message text of an error response:
`` `[${err.code}] ${err.message}` ``. -/
def errText (e : ErrObj) : String := "[" ++ e.code ++ "] " ++ e.message

/-- `JSON.parse` failure recovery text is irrelevant; the connection-lost and
not-connected rejection texts are these fixed strings. -/
def connectionLostText : String := "Bridge connection lost"

/-- Rejection text of `send` when the socket is absent or not open. -/
def notConnectedText : String := "Not connected to bridge"

/-- `Map.get`. -/
def mapGet (m : List (String × Nat)) (k : String) : Option Nat :=
  match m with
  | [] => none
  | (k1, v1) :: rest => if k1 = k then some v1 else mapGet rest k

/-- `Map.set`: update in place when the key exists, else append. -/
def mapSet (m : List (String × Nat)) (k : String) (v : Nat) : List (String × Nat) :=
  match m with
  | [] => [(k, v)]
  | (k1, v1) :: rest => if k1 = k then (k1, v) :: rest else (k1, v1) :: mapSet rest k v

/-- `Map.delete`. -/
def mapDelete (m : List (String × Nat)) (k : String) : List (String × Nat) :=
  match m with
  | [] => []
  | (k1, v1) :: rest => if k1 = k then rest else (k1, v1) :: mapDelete rest k

/-- Listener lookup: `this.listeners.get(event) ?? []`. -/
def lookupListeners (ls : List (String × List Nat)) (ev : String) : List Nat :=
  match ls with
  | [] => []
  | (e1, hs) :: rest => if e1 = ev then hs else lookupListeners rest ev

/-- `on(event, handler)`: create the set on first use, then `Set.add`
(a no-op when the handler is already registered). -/
def addListener (ls : List (String × List Nat)) (ev : String) (tok : Nat) :
    List (String × List Nat) :=
  match ls with
  | [] => [(ev, [tok])]
  | (e1, hs) :: rest =>
    if e1 = ev then (e1, if tok ∈ hs then hs else hs ++ [tok]) :: rest
    else (e1, hs) :: addListener rest ev tok

/-- `off(event, handler)`: `Set.delete` on the set, if present. -/
def removeListener (ls : List (String × List Nat)) (ev : String) (tok : Nat) :
    List (String × List Nat) :=
  match ls with
  | [] => []
  | (e1, hs) :: rest =>
    if e1 = ev then (e1, hs.filter (· ≠ tok)) :: rest
    else (e1, hs) :: removeListener rest ev tok

/-- State of one `G2` instance.  `wsOpen` is
`this.ws !== null && this.ws.readyState === OPEN`; `tokCtr` and `usedKeys`
are ghost fields (promise identity, key history) that no operation reads. -/
structure G2State where
  wsOpen : Bool := false
  closed : Bool := false
  reconnectTimer : Bool := false
  autoReconnect : Bool := true
  idCounter : Nat := 0
  pending : List (String × Nat) := []
  listeners : List (String × List Nat) := []
  tokCtr : Nat := 0
  usedKeys : List String := []
deriving DecidableEq

/-- The state of a freshly constructed `G2`. -/
def G2State.init : G2State := {}

/-- `String(++this.idCounter)`: decimal key of the pre-incremented counter. -/
def natKey (n : Nat) : String := Nat.repr n

/-- `private handleMessage(raw)`: parse failures return silently; a message
with an `event` key is emitted to its listeners; otherwise the message id is
looked up in the pending map (a miss returns silently), the entry is deleted,
and the promise is rejected with the error text or resolved with
`msg.result ?? {}`. -/
def handleMessage (st : G2State) (raw : Raw) : G2State × List Effect :=
  match raw with
  | .malformed => (st, [])
  | .msg m =>
    match m.eventF with
    | some ev => (st, [.emit ev (m.dataF.getD []) (lookupListeners st.listeners ev)])
    | none =>
      match m.idF with
      | none => (st, [])
      | some id =>
        match mapGet st.pending id with
        | none => (st, [])
        | some tok =>
          let st' := { st with pending := mapDelete st.pending id }
          match m.errorF with
          | some e => (st', [.settle tok (.rejected (errText e))])
          | none => (st', [.settle tok (.resolved (m.resultF.getD []))])

/-- `private send(method, params?)`: reject immediately when the socket is
absent or not open; otherwise register the promise in the pending map under
`String(++this.idCounter)` and write the JSON message to the socket. -/
def send (st : G2State) (method : String) (params : Option RData) :
    G2State × List Effect :=
  if st.wsOpen then
    let id := natKey (st.idCounter + 1)
    ({ st with
        idCounter := st.idCounter + 1
        pending := mapSet st.pending id st.tokCtr
        tokCtr := st.tokCtr + 1
        usedKeys := st.usedKeys ++ [id] },
      [.wsSend id method params])
  else
    ({ st with tokCtr := st.tokCtr + 1 },
      [.settle st.tokCtr (.rejected notConnectedText)])

/-- The `ws.onclose` handler: reject every pending request with the
connection-lost error, clear the map, and schedule a reconnect when
auto-reconnect is on and the client was not closed deliberately. -/
def onClose (st : G2State) : G2State × List Effect :=
  ({ st with
      wsOpen := false
      pending := []
      reconnectTimer := st.reconnectTimer || (st.autoReconnect && !st.closed) },
    st.pending.map fun kt => .settle kt.2 (.rejected connectionLostText))

/-- `closeBridge()`: mark closed, clear the reconnect timer, drop the socket. -/
def closeBridge (st : G2State) : G2State × List Effect :=
  ({ st with closed := true, reconnectTimer := false, wsOpen := false }, [])

/-- One externally triggered operation of the client.  `connectOk` is a
successful `connectBridge` (the constructor plus `onopen`); reconnect-timer
expiry re-runs `connectBridge` and is covered by `connectOk` / `connectFail`;
`recv` is `ws.onmessage`, which forwards `String(e.data)` to `handleMessage`. -/
inductive Step where
  | connectOk
  | connectFail
  | sendCmd (method : String) (params : Option RData)
  | recv (raw : Raw)
  | wsClose
  | closeB
  | onEv (ev : String) (tok : Nat)
  | offEv (ev : String) (tok : Nat)
deriving DecidableEq

/-- Step semantics of the client. -/
def exec (st : G2State) : Step → G2State × List Effect
  | .connectOk => ({ st with closed := false, wsOpen := true }, [])
  | .connectFail => ({ st with closed := false }, [])
  | .sendCmd method params => send st method params
  | .recv raw => handleMessage st raw
  | .wsClose => onClose st
  | .closeB => closeBridge st
  | .onEv ev tok => ({ st with listeners := addListener st.listeners ev tok }, [])
  | .offEv ev tok => ({ st with listeners := removeListener st.listeners ev tok }, [])

/-- Run a sequence of steps, concatenating their effects. -/
def execTrace (st : G2State) : List Step → G2State × List Effect
  | [] => (st, [])
  | s :: rest =>
    let r := exec st s
    let r2 := execTrace r.1 rest
    (r2.1, r.2 ++ r2.2)

/-! ## Decimal keys are injective

`String(n)` in JavaScript and `Nat.repr` in Lean both produce the decimal
digits of `n`; the lemmas below show `Nat.repr` (hence `natKey`) is
injective, which underpins freshness of the pending-map keys.
-/

/-- Reference decimal digit list (most significant first). -/
def decDigits (n : Nat) : List Char :=
  if n < 10 then [Nat.digitChar n]
  else decDigits (n / 10) ++ [Nat.digitChar (n % 10)]
termination_by n
decreasing_by exact Nat.div_lt_self (by omega) (by norm_num)

theorem toDigitsCore_eq_decDigits (fuel : Nat) :
    ∀ n ds, n < fuel → Nat.toDigitsCore 10 fuel n ds = decDigits n ++ ds := by
  induction fuel with
  | zero => intro n ds h; omega
  | succ fuel ih =>
    intro n ds h
    rw [Nat.toDigitsCore]
    by_cases h10 : n / 10 = 0
    · have hn : n < 10 := by omega
      rw [if_pos h10, decDigits, if_pos hn]
      have : n % 10 = n := Nat.mod_eq_of_lt hn
      rw [this]
      simp
    · have hn : ¬n < 10 := by omega
      rw [if_neg h10, ih (n / 10) _ (by omega)]
      conv_rhs => rw [decDigits]
      rw [if_neg hn]
      simp

theorem repr_eq_decDigits (n : Nat) : Nat.repr n = (decDigits n).asString := by
  show (Nat.toDigits 10 n).asString = (decDigits n).asString
  rw [Nat.toDigits, toDigitsCore_eq_decDigits (n + 1) n [] (by omega)]
  simp

theorem digitChar_toNat {d : Nat} (h : d < 10) : (Nat.digitChar d).toNat = 48 + d := by
  interval_cases d <;> decide

theorem decDigits_foldl (n : Nat) :
    ∀ a, (decDigits n).foldl (fun x c => 10 * x + (c.toNat - 48)) a =
      a * 10 ^ (decDigits n).length + n := by
  induction n using Nat.strong_induction_on with
  | _ n ih =>
    intro a
    by_cases h : n < 10
    · rw [decDigits, if_pos h]
      simp [List.foldl, digitChar_toNat h]
      omega
    · rw [decDigits, if_neg h]
      rw [List.foldl_append, ih (n / 10) (Nat.div_lt_self (by omega) (by norm_num))]
      simp only [List.foldl, List.length_append, List.length_cons, List.length_nil]
      rw [digitChar_toNat (Nat.mod_lt n (by norm_num))]
      have hmod : 48 + n % 10 - 48 = n % 10 := by omega
      rw [hmod, pow_succ]
      have := Nat.div_add_mod n 10
      ring_nf
      omega

theorem natKey_injective : Function.Injective natKey := by
  intro m n h
  unfold natKey at h
  rw [repr_eq_decDigits, repr_eq_decDigits] at h
  have hd : decDigits m = decDigits n := by
    have : (decDigits m).asString.data = (decDigits n).asString.data := by rw [h]
    simpa [List.asString] using this
  have hm := decDigits_foldl m 0
  have hn := decDigits_foldl n 0
  rw [hd] at hm
  rw [hm] at hn
  omega

/-! ## Disjoint bitwise or is addition -/

theorem bit_or_bit (m x y : Nat) (hm : m < 2) :
    (2 * x + m) ||| (2 * y) = 2 * (x ||| y) + m := by
  have h1 : Nat.bit (decide (m = 1)) x = 2 * x + m := by
    rw [Nat.bit_val]
    interval_cases m <;> simp
  have h2 : Nat.bit false y = 2 * y := by rw [Nat.bit_val]; simp
  have h3 : Nat.bit (decide (m = 1)) (x ||| y) = 2 * (x ||| y) + m := by
    rw [Nat.bit_val]
    interval_cases m <;> simp
  calc (2 * x + m) ||| (2 * y)
      = Nat.bit (decide (m = 1)) x ||| Nat.bit false y := by rw [h1, h2]
    _ = Nat.bit (decide (m = 1) || false) (x ||| y) := Nat.lor_bit _ _ _ _
    _ = 2 * (x ||| y) + m := by rw [Bool.or_false, h3]

theorem lor_two_pow_mul (s : Nat) :
    ∀ a b, a < 2 ^ s → a ||| 2 ^ s * b = a + 2 ^ s * b := by
  induction s with
  | zero =>
    intro a b h
    have : a = 0 := by omega
    subst this
    simp
  | succ s ih =>
    intro a b h
    have hs : 2 ^ (s + 1) = 2 ^ s * 2 := by rw [pow_succ]
    have h2 : a / 2 < 2 ^ s := by omega
    have hdecomp : a = 2 * (a / 2) + a % 2 := by omega
    have hrhs : 2 ^ (s + 1) * b = 2 * (2 ^ s * b) := by rw [hs]; ring
    rw [hdecomp, hrhs, bit_or_bit _ _ _ (Nat.mod_lt a (by norm_num)), ih (a / 2) b h2]
    omega

/-! ## Frame codec (spec section 4.1)

Modelled from the spec: the Frame Codec has no TypeScript source in this
repository (it lives in the Python bridge, which is not shipped here); the
definitions below follow the spec's words in sections 3 and 4.1.
-/

/-- Modelled from the spec: one physical packet, restricted to the fields the
fragmentation contract concerns: `fragment_index` (1-based), `fragment_total`,
and the payload slice. -/
structure Frame where
  fragmentIndex : Nat
  fragmentTotal : Nat
  payload : List Nat
deriving DecidableEq

/-- Modelled from the spec: the reassembled unit, its `body` the concatenation
of all fragments' payload slices in fragment order. -/
structure LogicalMessage where
  body : List Nat
deriving DecidableEq

/-- Split a byte sequence into consecutive chunks of at most `m` bytes
(`m ≥ 1`; the degenerate `m = 0` case returns no chunks). -/
def chunksList : Nat → List Nat → List (List Nat)
  | _, [] => []
  | 0, _ :: _ => []
  | m + 1, x :: xs => (x :: xs).take (m + 1) :: chunksList (m + 1) ((x :: xs).drop (m + 1))
termination_by _ l => l.length
decreasing_by simp [List.length_drop]; omega

/-- Number consecutive chunks from `i`, all carrying the same `fragment_total`. -/
def encodeFrames (total : Nat) : Nat → List (List Nat) → List Frame
  | _, [] => []
  | i, c :: cs => ⟨i, total, c⟩ :: encodeFrames total (i + 1) cs

/-- Modelled from the spec: `encode` splits `body` into chunks no larger than
`max_fragment_payload`, assigns `fragment_total = ceil(len(body) / max_fragment_payload)`,
and numbers fragments from 1. -/
def encode (body : List Nat) (maxFrag : Nat) : List Frame :=
  let total := (body.length + maxFrag - 1) / maxFrag
  encodeFrames total 1 (chunksList maxFrag body)

/-- Modelled from the spec: assemble-all concatenates every fragment's payload
slice in fragment order into one logical message. -/
def assembleAll (frames : List Frame) : LogicalMessage :=
  ⟨(frames.map Frame.payload).flatten⟩

/-- Modelled from the spec: decoding a finalized logical message yields its body. -/
def decodeMsg (m : LogicalMessage) : List Nat := m.body

theorem chunksList_flatten (m : Nat) (l : List Nat) :
    (chunksList (m + 1) l).flatten = l := by
  generalize hn : l.length = n
  induction n using Nat.strong_induction_on generalizing l with
  | _ n ih =>
    match l with
    | [] => rw [chunksList]; rfl
    | x :: xs =>
      rw [chunksList]
      simp only [List.flatten_cons]
      rw [ih ((x :: xs).drop (m + 1)).length (by subst hn; simp; omega) _ rfl]
      exact List.take_append_drop _ _

theorem chunksList_length (m : Nat) (l : List Nat) :
    (chunksList (m + 1) l).length = (l.length + m) / (m + 1) := by
  generalize hn : l.length = n
  induction n using Nat.strong_induction_on generalizing l with
  | _ n ih =>
    match l with
    | [] =>
      rw [chunksList]
      obtain rfl : n = 0 := by simpa using hn.symm
      simp only [Nat.zero_add]
      exact (Nat.div_eq_of_lt (by omega)).symm
    | x :: xs =>
      rw [chunksList]
      simp only [List.length_cons]
      rw [ih ((x :: xs).drop (m + 1)).length (by subst hn; simp; omega) _ rfl]
      simp only [List.length_drop]
      subst hn
      simp only [List.length_cons]
      by_cases hbig : xs.length + 1 ≥ m + 1
      · have h1 : xs.length + 1 - (m + 1) + m = xs.length := by omega
        have hnum : xs.length + 1 + m = xs.length + (m + 1) := by omega
        rw [h1, hnum, Nat.add_div_right _ (show 0 < m + 1 by omega)]
      · have h0 : xs.length + 1 - (m + 1) = 0 := by omega
        rw [h0]
        simp only [Nat.zero_add]
        rw [Nat.div_eq_of_lt (show m < m + 1 by omega)]
        have h2 : (xs.length + 1 + m) / (m + 1) = 1 := by
          apply Nat.div_eq_of_lt_le
          · omega
          · omega
        omega

theorem chunksList_sizes (m : Nat) (l : List Nat) :
    ∀ c ∈ chunksList (m + 1) l, c.length ≤ m + 1 := by
  generalize hn : l.length = n
  induction n using Nat.strong_induction_on generalizing l with
  | _ n ih =>
    match l with
    | [] => rw [chunksList]; intro c hc; simp at hc
    | x :: xs =>
      rw [chunksList]
      intro c hc
      rcases List.mem_cons.mp hc with h | h
      · subst h; simp
      · exact ih ((x :: xs).drop (m + 1)).length (by subst hn; simp; omega) _ rfl c h

theorem encodeFrames_payloads (total : Nat) :
    ∀ i cs, (encodeFrames total i cs).map Frame.payload = cs := by
  intro i cs
  induction cs generalizing i with
  | nil => rfl
  | cons c cs ih => simp [encodeFrames, ih]

theorem encodeFrames_mem (total : Nat) :
    ∀ i cs fr, fr ∈ encodeFrames total i cs →
      fr.fragmentTotal = total ∧ fr.payload ∈ cs := by
  intro i cs
  induction cs generalizing i with
  | nil => intro fr h; simp [encodeFrames] at h
  | cons c cs ih =>
    intro fr h
    rcases List.mem_cons.mp h with h | h
    · subst h; exact ⟨rfl, List.mem_cons_self _ _⟩
    · obtain ⟨h1, h2⟩ := ih (i + 1) fr h
      exact ⟨h1, List.mem_cons_of_mem _ h2⟩

theorem encodeFrames_length (total : Nat) :
    ∀ i cs, (encodeFrames total i cs).length = cs.length := by
  intro i cs
  induction cs generalizing i with
  | nil => rfl
  | cons c cs ih => simp [encodeFrames, ih]

/-! ## Map helper lemmas -/

theorem mapGet_some_mem (m : List (String × Nat)) (k : String) (v : Nat) :
    mapGet m k = some v → (k, v) ∈ m := by
  induction m with
  | nil => intro h; simp [mapGet] at h
  | cons kv rest ih =>
    intro h
    rw [mapGet] at h
    by_cases hk : kv.1 = k
    · rw [if_pos hk] at h
      have hkv : kv = (k, v) := by
        cases kv
        simp_all
      rw [← hkv]
      exact List.mem_cons_self _ _
    · rw [if_neg hk] at h
      exact List.mem_cons_of_mem _ (ih h)

theorem mapDelete_subset (m : List (String × Nat)) (k : String) :
    ∀ kt ∈ mapDelete m k, kt ∈ m := by
  induction m with
  | nil => intro kt h; simp [mapDelete] at h
  | cons kv rest ih =>
    intro kt h
    rw [mapDelete] at h
    by_cases hk : kv.1 = k
    · rw [if_pos hk] at h
      exact List.mem_cons_of_mem _ h
    · rw [if_neg hk] at h
      rcases List.mem_cons.mp h with h1 | h1
      · exact h1 ▸ List.mem_cons_self _ _
      · exact List.mem_cons_of_mem _ (ih kt h1)

theorem mapSet_mem (m : List (String × Nat)) (k : String) (v : Nat) :
    ∀ kt ∈ mapSet m k v, kt.1 = k ∨ kt ∈ m := by
  induction m with
  | nil => intro kt h; simp [mapSet] at h; simp [h]
  | cons kv rest ih =>
    intro kt h
    rw [mapSet] at h
    by_cases hk : kv.1 = k
    · rw [if_pos hk] at h
      rcases List.mem_cons.mp h with h1 | h1
      · left; rw [h1]; exact hk
      · right; exact List.mem_cons_of_mem _ h1
    · rw [if_neg hk] at h
      rcases List.mem_cons.mp h with h1 | h1
      · right; exact h1 ▸ List.mem_cons_self _ _
      · rcases ih kt h1 with h2 | h2
        · left; exact h2
        · right; exact List.mem_cons_of_mem _ h2

theorem mapSet_keys (m : List (String × Nat)) (k : String) (v : Nat) :
    (mapSet m k v).map Prod.fst =
      if k ∈ m.map Prod.fst then m.map Prod.fst else m.map Prod.fst ++ [k] := by
  induction m with
  | nil => simp [mapSet]
  | cons kv rest ih =>
    rw [mapSet]
    by_cases hk : kv.1 = k
    · rw [if_pos hk]
      simp [hk]
    · rw [if_neg hk]
      simp only [List.map_cons, ih]
      have hne : ¬k = kv.1 := fun h => hk h.symm
      by_cases hmem : k ∈ rest.map Prod.fst
      · simp [hmem, hne]
      · simp [hmem, hne]

theorem mapSet_nodup (m : List (String × Nat)) (k : String) (v : Nat)
    (h : (m.map Prod.fst).Nodup) : ((mapSet m k v).map Prod.fst).Nodup := by
  rw [mapSet_keys]
  by_cases hmem : k ∈ m.map Prod.fst
  · rw [if_pos hmem]; exact h
  · rw [if_neg hmem]
    have := List.Nodup.concat hmem h
    simpa [List.concat_eq_append] using this

/-! ## Claims C1, C2, C4, C5, C6 -/

/-- C1 counterexample: a message whose id matches pending key "1" but which
carries an `error` field makes `handleMessage` reject the promise with the
bracketed error text; it does not resolve it with the message's result field,
so the claim as stated (every id-matching message resolves the promise with
its result) is false on the code. -/
theorem C1_counterexample :
    handleMessage { pending := [("1", 7)] }
        (.msg { idF := some "1", errorF := some ⟨"X", "boom"⟩ }) =
      ({ pending := [] }, [.settle 7 (.rejected "[X] boom")]) ∧
    Effect.settle 7 (.rejected "[X] boom") ≠ .settle 7 (.resolved []) := by
  constructor
  · decide
  · decide

/-- C1 (amended): for a pending request under key `K`, every later message
with no `event` field and id equal to `K` removes the entry for `K` from the
pending map; the send promise resolves with the message's result field
(`{}` when absent) when the message has no `error` field, and rejects with
the bracketed error text when it has one. -/
theorem C1_resolve_matching (st : G2State) (m : Msg) (id : String) (tok : Nat)
    (hev : m.eventF = none) (hid : m.idF = some id)
    (hp : mapGet st.pending id = some tok) :
    (handleMessage st (.msg m)).1 = { st with pending := mapDelete st.pending id } ∧
    (∀ e, m.errorF = some e →
      (handleMessage st (.msg m)).2 = [.settle tok (.rejected (errText e))]) ∧
    (m.errorF = none →
      (handleMessage st (.msg m)).2 = [.settle tok (.resolved (m.resultF.getD []))]) := by
  refine ⟨?_, fun e herr => ?_, fun herr => ?_⟩
  · rcases herr : m.errorF with _ | e <;> simp [handleMessage, hev, hid, hp, herr]
  · simp [handleMessage, hev, hid, hp, herr]
  · simp [handleMessage, hev, hid, hp, herr]

/-- C1 witness: concrete instances of both branches of `C1_resolve_matching`
(a result message resolves, an error message rejects; both remove the entry). -/
theorem C1_resolve_matching_witness :
    mapGet [("5", 2)] "5" = some 2 ∧
    handleMessage { pending := [("5", 2)] }
        (.msg { idF := some "5", resultF := some [("ok", "1")] }) =
      ({ pending := [] }, [.settle 2 (.resolved [("ok", "1")])]) ∧
    handleMessage { pending := [("5", 2)] }
        (.msg { idF := some "5", errorF := some ⟨"E", "bad"⟩ }) =
      ({ pending := [] }, [.settle 2 (.rejected "[E] bad")]) := by
  refine ⟨by decide, ?_, ?_⟩
  · have h := C1_resolve_matching { pending := [("5", 2)] }
      { idF := some "5", resultF := some [("ok", "1")] } "5" 2 rfl rfl (by decide)
    have hpair : handleMessage { pending := [("5", 2)] }
        (.msg { idF := some "5", resultF := some [("ok", "1")] }) =
        ((handleMessage { pending := [("5", 2)] }
          (.msg { idF := some "5", resultF := some [("ok", "1")] })).1,
         (handleMessage { pending := [("5", 2)] }
          (.msg { idF := some "5", resultF := some [("ok", "1")] })).2) := rfl
    rw [hpair, h.1, h.2.2 rfl]
    decide
  · have h := C1_resolve_matching { pending := [("5", 2)] }
      { idF := some "5", errorF := some ⟨"E", "bad"⟩ } "5" 2 rfl rfl (by decide)
    have hpair : handleMessage { pending := [("5", 2)] }
        (.msg { idF := some "5", errorF := some ⟨"E", "bad"⟩ }) =
        ((handleMessage { pending := [("5", 2)] }
          (.msg { idF := some "5", errorF := some ⟨"E", "bad"⟩ })).1,
         (handleMessage { pending := [("5", 2)] }
          (.msg { idF := some "5", errorF := some ⟨"E", "bad"⟩ })).2) := rfl
    rw [hpair, h.1, h.2.1 ⟨"E", "bad"⟩ rfl]
    decide

/-- C2: when the bridge WebSocket closes, the `onclose` handler rejects every
outstanding pending request with the connection-lost error (in map order) and
leaves the pending map empty. -/
theorem C2_close_rejects_all (st : G2State) :
    (exec st .wsClose).1.pending = [] ∧
    (exec st .wsClose).2 =
      st.pending.map fun kt => Effect.settle kt.2 (.rejected connectionLostText) :=
  ⟨rfl, rfl⟩

/-- C4 counterexample: an inbound response message whose id matches no pending
request is dropped silently — `handleMessage` returns with no emitted event and
no state change, even with a listener registered — so the claim that every
unmatched message is raised as an unsolicited-notification event is false. -/
theorem C4_counterexample :
    handleMessage { pending := [], listeners := [("response", [3])] }
        (.msg { idF := some "9", resultF := some [("raw", "aa")] }) =
      ({ pending := [], listeners := [("response", [3])] }, []) := by
  decide

/-- C4 (amended): a message carrying an `event` field is emitted to the
listeners registered for that event (regardless of the pending map); a
message without an `event` field that matches no pending request — by an id
miss or a missing id — is silently discarded with no event and no state
change. -/
theorem C4_dispatch (st : G2State) (m : Msg) :
    (∀ ev, m.eventF = some ev →
      handleMessage st (.msg m) =
        (st, [.emit ev (m.dataF.getD []) (lookupListeners st.listeners ev)])) ∧
    (m.eventF = none →
      (∀ id, m.idF = some id → mapGet st.pending id = none →
        handleMessage st (.msg m) = (st, [])) ∧
      (m.idF = none → handleMessage st (.msg m) = (st, []))) := by
  refine ⟨fun ev hev => ?_, fun hev => ⟨fun id hid hp => ?_, fun hid => ?_⟩⟩
  · simp [handleMessage, hev]
  · simp [handleMessage, hev, hid, hp]
  · simp [handleMessage, hev, hid]

/-- C4 witness: concrete instances of both parts of `C4_dispatch`. -/
theorem C4_dispatch_witness :
    handleMessage { listeners := [("connected", [4])] }
        (.msg { eventF := some "connected", dataF := some [("device", "G2")] }) =
      ({ listeners := [("connected", [4])] },
        [.emit "connected" [("device", "G2")] [4]]) ∧
    handleMessage {} (.msg { idF := some "3" }) = ({}, []) := by
  constructor
  · have h := (C4_dispatch { listeners := [("connected", [4])] }
      { eventF := some "connected", dataF := some [("device", "G2")] }).1 "connected" rfl
    rw [h]
    decide
  · have h := ((C4_dispatch {} { idF := some "3" }).2 rfl).1 "3" rfl (by decide)
    rw [h]

/-- C5 counterexample: `send` performs no duplicate-key check.  From a state
whose pending map already binds key "1" (the key `String(++idCounter)` will
produce), a second `send` silently overwrites the entry via `Map.set` — the
old promise token 5 is replaced by the new token 6 — and succeeds with a
socket write; no `DuplicateKey` rejection exists anywhere in the code. -/
theorem C5_counterexample :
    send { wsOpen := true, pending := [("1", 5)], tokCtr := 6 } "setText" none =
      ({ wsOpen := true, idCounter := 1, pending := [("1", 6)], tokCtr := 7,
          usedKeys := ["1"] },
        [.wsSend "1" "setText" none]) ∧
    (5 : Nat) ≠ 6 := by
  constructor
  · decide
  · decide

/-- C5 (amended): `send` on an open socket never produces a rejection and
updates the pending map with `Map.set` semantics (silently replacing a
colliding entry rather than failing with a `DuplicateKey` error); the map
itself keeps at most one entry per key: `Map.set` preserves key uniqueness. -/
theorem C5_overwrite_semantics (st : G2State) (method : String) (params : Option RData)
    (h : st.wsOpen = true) :
    (send st method params).1.pending =
      mapSet st.pending (natKey (st.idCounter + 1)) st.tokCtr ∧
    (∀ e ∈ (send st method params).2, ∀ tok out, e ≠ .settle tok out) ∧
    ((st.pending.map Prod.fst).Nodup →
      ((send st method params).1.pending.map Prod.fst).Nodup) := by
  refine ⟨?_, ?_, ?_⟩
  · simp [send, h]
  · intro e he tok out
    simp [send, h] at he
    simp [he]
  · intro hnd
    simp only [send, h, if_pos]
    exact mapSet_nodup _ _ _ hnd

/-- C5 witness: concrete instance of `C5_overwrite_semantics`. -/
theorem C5_overwrite_semantics_witness :
    (send { wsOpen := true } "connect" none).1.pending = mapSet [] (natKey 1) 0 ∧
    (∀ e ∈ (send { wsOpen := true } "connect" none).2, ∀ tok out, e ≠ .settle tok out) ∧
    ((([] : List (String × Nat)).map Prod.fst).Nodup →
      (((send { wsOpen := true } "connect" none).1.pending.map Prod.fst)).Nodup) :=
  C5_overwrite_semantics { wsOpen := true } "connect" none rfl

/-- C6: an inbound chunk that fails to parse as JSON makes `handleMessage`
return silently: no exception, no promise settled, no event emitted, no state
change (pending map and listener registries untouched, connection left open). -/
theorem C6_malformed_silent (st : G2State) :
    handleMessage st .malformed = (st, []) := rfl

/-! ## Claim C3: there is no timeout machinery -/

/-- The only ways a `send` promise is ever settled: resolved with a message's
result, rejected with a message's bracketed error text, rejected because the
socket was not open, or rejected because the connection closed.  No timer
exists and no timeout outcome is ever produced. -/
def settleShapeOk (e : Effect) : Prop :=
  ∀ tok out, e = .settle tok out →
    (∃ r, out = .resolved r) ∨ out = .rejected connectionLostText ∨
    out = .rejected notConnectedText ∨ ∃ eo, out = .rejected (errText eo)

/-- C3 counterexample: `send` takes no timeout parameter and registers no
timer.  In the concrete run connect–send–close, no matching dispatch ever
arrives, yet the request's promise is settled by the connection-lost
rejection raised at socket close — not by any timeout result at a deadline
`T`, which contradicts the claim that such a request's returned result is a
timeout error. -/
theorem C3_counterexample :
    (execTrace G2State.init [.connectOk, .sendCmd "setText" none, .wsClose]).2 =
      [.wsSend "1" "setText" none, .settle 0 (.rejected connectionLostText)] := by
  decide

/-- C3 (amended): the SDK implements no request timeout.  Every effect any
operation can produce settles a promise only with a message's result, a
message's error, the not-connected rejection, or the connection-lost
rejection; in particular no background timer exists (no operation of the
client is a timer) and no timeout outcome is ever delivered. -/
theorem C3_no_timeout (st : G2State) (s : Step) :
    ∀ e ∈ (exec st s).2, settleShapeOk e := by
  cases s with
  | connectOk => intro e he; simp [exec] at he
  | connectFail => intro e he; simp [exec] at he
  | sendCmd method params =>
    intro e he
    by_cases h : st.wsOpen
    · simp [exec, send, h] at he
      simp [settleShapeOk, he]
    · simp [exec, send, h] at he
      subst he
      intro tok out hout
      simp at hout
      simp [hout]
  | recv raw =>
    intro e he
    match raw with
    | .malformed => simp [exec, handleMessage] at he
    | .msg m =>
      rcases hev : m.eventF with _ | ev
      · rcases hid : m.idF with _ | id
        · simp [exec, handleMessage, hev, hid] at he
        · rcases hp : mapGet st.pending id with _ | tok
          · simp [exec, handleMessage, hev, hid, hp] at he
          · rcases herr : m.errorF with _ | eo
            · simp [exec, handleMessage, hev, hid, hp, herr] at he
              subst he
              intro tok1 out hout
              simp at hout
              left
              exact ⟨_, hout.2.symm⟩
            · simp [exec, handleMessage, hev, hid, hp, herr] at he
              subst he
              intro tok1 out hout
              simp at hout
              right; right; right
              exact ⟨eo, hout.2.symm⟩
      · simp [exec, handleMessage, hev] at he
        simp [settleShapeOk, he]
  | wsClose =>
    intro e he
    simp [exec, onClose] at he
    obtain ⟨k1, t1, hmem, heq⟩ := he
    subst heq
    intro tok out hout
    simp at hout
    right; left
    exact hout.2.symm
  | closeB => intro e he; simp [exec, closeBridge] at he
  | onEv ev tok => intro e he; simp [exec] at he
  | offEv ev tok => intro e he; simp [exec] at he

/-- C3 witness: concrete instance of `C3_no_timeout` — the rejection of a
`send` on a closed socket has one of the permitted shapes. -/
theorem C3_no_timeout_witness :
    settleShapeOk (.settle 0 (.rejected notConnectedText)) :=
  C3_no_timeout {} (.sendCmd "setText" none) _ (by decide)

/-! ## Claim C8: pending-map keys are fresh across the instance lifetime -/

/-- Invariant tying the ghost key history to the counter: the recorded keys
are pairwise distinct, each is the decimal key of some counter value in
`[1, idCounter]`, and every key in the pending map was recorded. -/
def G2Inv (st : G2State) : Prop :=
  st.usedKeys.Nodup ∧
  (∀ k ∈ st.usedKeys, ∃ n, 1 ≤ n ∧ n ≤ st.idCounter ∧ k = natKey n) ∧
  (∀ kt ∈ st.pending, kt.1 ∈ st.usedKeys)

theorem natKey_not_used (c : Nat) (ks : List String)
    (h : ∀ k ∈ ks, ∃ n, 1 ≤ n ∧ n ≤ c ∧ k = natKey n) :
    natKey (c + 1) ∉ ks := by
  intro hmem
  obtain ⟨n, _, hle, heq⟩ := h _ hmem
  have := natKey_injective heq.symm
  omega

/-- C8: every `send` on an open socket registers its pending request under a
key (`String(++idCounter)`) distinct from every key any earlier `send` on the
instance registered, so a new registration never overwrites an unresolved
entry; the invariant (recorded keys pairwise distinct, pending keys recorded)
holds initially and is preserved by every operation. -/
theorem C8_fresh_keys :
    G2Inv G2State.init ∧
    (∀ st s, G2Inv st → G2Inv (exec st s).1) ∧
    (∀ st, G2Inv st → st.wsOpen = true →
      natKey (st.idCounter + 1) ∉ st.usedKeys ∧
      mapGet st.pending (natKey (st.idCounter + 1)) = none) := by
  have fresh : ∀ st, G2Inv st →
      natKey (st.idCounter + 1) ∉ st.usedKeys ∧
      mapGet st.pending (natKey (st.idCounter + 1)) = none := by
    intro st ⟨hnd, hbound, hpend⟩
    have hnot := natKey_not_used st.idCounter st.usedKeys hbound
    refine ⟨hnot, ?_⟩
    rcases hp : mapGet st.pending (natKey (st.idCounter + 1)) with _ | v
    · rfl
    · exact absurd (hpend _ (mapGet_some_mem _ _ _ hp)) hnot
  refine ⟨?_, ?_, fun st hinv _ => fresh st hinv⟩
  · refine ⟨List.nodup_nil, ?_, ?_⟩ <;> intro k hk <;> simp [G2State.init] at hk
  · intro st s hinv
    obtain ⟨hnd, hbound, hpend⟩ := hinv
    cases s with
    | connectOk => exact ⟨hnd, hbound, hpend⟩
    | connectFail => exact ⟨hnd, hbound, hpend⟩
    | sendCmd method params =>
      by_cases h : st.wsOpen
      · have hnot := natKey_not_used st.idCounter st.usedKeys hbound
        simp only [exec, send, h, if_pos]
        dsimp only [G2Inv]
        refine ⟨?_, ?_, ?_⟩
        · have := List.Nodup.concat hnot hnd
          simpa [List.concat_eq_append] using this
        · intro k hk
          rcases List.mem_append.mp hk with h1 | h1
          · obtain ⟨n, hn1, hn2, hn3⟩ := hbound k h1
            exact ⟨n, hn1, by omega, hn3⟩
          · simp at h1
            exact ⟨st.idCounter + 1, by omega, by omega, h1⟩
        · intro kt hkt
          rcases mapSet_mem _ _ _ kt hkt with h1 | h1
          · simp [h1]
          · exact List.mem_append_left _ (hpend kt h1)
      · simp only [exec, send, h, if_neg, Bool.false_eq_true, not_false_iff]
        exact ⟨hnd, hbound, hpend⟩
    | recv raw =>
      match raw with
      | .malformed => exact ⟨hnd, hbound, hpend⟩
      | .msg m =>
        rcases hev : m.eventF with _ | ev
        · rcases hid : m.idF with _ | id
          · simpa [exec, handleMessage, hev, hid] using ⟨hnd, hbound, hpend⟩
          · rcases hp : mapGet st.pending id with _ | tok
            · simpa [exec, handleMessage, hev, hid, hp] using ⟨hnd, hbound, hpend⟩
            · rcases herr : m.errorF with _ | eo
              · simp only [exec, handleMessage, hev, hid, hp, herr]
                exact ⟨hnd, hbound, fun kt hkt => hpend kt (mapDelete_subset _ _ kt hkt)⟩
              · simp only [exec, handleMessage, hev, hid, hp, herr]
                exact ⟨hnd, hbound, fun kt hkt => hpend kt (mapDelete_subset _ _ kt hkt)⟩
        · simpa [exec, handleMessage, hev] using ⟨hnd, hbound, hpend⟩
    | wsClose =>
      refine ⟨hnd, hbound, ?_⟩
      intro kt hkt
      simp [exec, onClose] at hkt
    | closeB => exact ⟨hnd, hbound, hpend⟩
    | onEv ev tok => exact ⟨hnd, hbound, hpend⟩
    | offEv ev tok => exact ⟨hnd, hbound, hpend⟩

/-- C8 witness: concrete instance — after a successful connect, the invariant
holds and the key of the next `send` is fresh. -/
theorem C8_fresh_keys_witness :
    G2Inv (exec G2State.init .connectOk).1 ∧
    natKey ((exec G2State.init .connectOk).1.idCounter + 1) ∉
      (exec G2State.init .connectOk).1.usedKeys := by
  have h1 : G2Inv G2State.init := C8_fresh_keys.1
  have h2 := C8_fresh_keys.2.1 G2State.init .connectOk h1
  have h3 := C8_fresh_keys.2.2 (exec G2State.init .connectOk).1 h2 rfl
  exact ⟨h2, h3.1⟩

/-- C7: for any payload `P` and any `max_fragment_payload ≥ 1`, encoding `P`,
reassembling all fragments, and decoding yields exactly `P`; `encode` splits
the body into chunks no larger than `max_fragment_payload`, produces
`ceil(len(P) / max_fragment_payload)` frames, and stamps each with that
`fragment_total`. -/
theorem C7_roundtrip (P : List Nat) (maxFrag : Nat) (h : 1 ≤ maxFrag) :
    decodeMsg (assembleAll (encode P maxFrag)) = P ∧
    (encode P maxFrag).length = (P.length + maxFrag - 1) / maxFrag ∧
    ∀ fr ∈ encode P maxFrag,
      fr.payload.length ≤ maxFrag ∧
      fr.fragmentTotal = (P.length + maxFrag - 1) / maxFrag := by
  obtain ⟨m, rfl⟩ : ∃ m, maxFrag = m + 1 := ⟨maxFrag - 1, by omega⟩
  refine ⟨?_, ?_, ?_⟩
  · show ((encodeFrames _ 1 (chunksList (m + 1) P)).map Frame.payload).flatten = P
    rw [encodeFrames_payloads, chunksList_flatten]
  · show (encodeFrames _ 1 (chunksList (m + 1) P)).length = _
    rw [encodeFrames_length, chunksList_length]
    have hnum : P.length + (m + 1) - 1 = P.length + m := by omega
    rw [hnum]
  · intro fr hfr
    obtain ⟨htot, hpay⟩ := encodeFrames_mem _ 1 _ fr hfr
    constructor
    · exact chunksList_sizes m P _ hpay
    · rw [htot]

/-- C7 witness: concrete instance of `C7_roundtrip` with a 3-byte payload and
fragment size 2. -/
theorem C7_roundtrip_witness :
    decodeMsg (assembleAll (encode [1, 2, 3] 2)) = [1, 2, 3] ∧
    (encode [1, 2, 3] 2).length = 2 ∧
    ∀ fr ∈ encode [1, 2, 3] 2, fr.payload.length ≤ 2 ∧ fr.fragmentTotal = 2 := by
  have h := C7_roundtrip [1, 2, 3] 2 (by omega)
  simpa using h

/-! ## Int32 coercion lemmas for in-range values -/

theorem toUint32_natCast (n : Nat) (h : n < 2 ^ 32) : toUint32 (n : Int) = n := by
  unfold toUint32
  rw [Int.emod_eq_of_lt (by positivity) (by exact_mod_cast h)]
  exact Int.toNat_ofNat n

theorem toInt32_natCast (n : Nat) (h : n < 2 ^ 31) : toInt32 (n : Int) = n := by
  unfold toInt32
  rw [toUint32_natCast n (by omega)]
  rw [if_pos h]

theorem jsShl_zero (s : Nat) : jsShl 0 s = 0 := by
  have h0 : toUint32 0 = 0 := toUint32_natCast 0 (by norm_num)
  unfold jsShl
  rw [h0]
  simp only [Nat.zero_shiftLeft, Nat.zero_mod, Int.natCast_zero]
  exact toInt32_natCast 0 (by norm_num)

theorem jsShl_small (g s : Nat) (h1 : 2 ^ s * g < 2 ^ 31) (h2 : s < 32) :
    jsShl (g : Int) s = ((2 ^ s * g : Nat) : Int) := by
  have hg : g < 2 ^ 32 := by
    have : 1 * g ≤ 2 ^ s * g := Nat.mul_le_mul_right g Nat.one_le_two_pow
    omega
  unfold jsShl
  rw [toUint32_natCast g hg, Nat.mod_eq_of_lt h2, Nat.shiftLeft_eq,
    Nat.mul_comm g (2 ^ s), Nat.mod_eq_of_lt (by omega)]
  exact toInt32_natCast _ (by omega)

theorem jsOr_add (a s g : Nat) (ha : a < 2 ^ s) (hsum : a + 2 ^ s * g < 2 ^ 31) :
    jsOr (a : Int) ((2 ^ s * g : Nat) : Int) = ((a + 2 ^ s * g : Nat) : Int) := by
  unfold jsOr
  rw [toUint32_natCast a (by omega), toUint32_natCast (2 ^ s * g) (by omega)]
  have hlor : Nat.lor a (2 ^ s * g) = a + 2 ^ s * g := lor_two_pow_mul s a g ha
  rw [hlor]
  exact toInt32_natCast _ (by omega)

/-! ## Byte mask lemmas -/

theorem land_127_eq_mod (v : Nat) : v &&& 127 = v % 128 := by
  have h := Nat.and_pow_two_sub_one_eq_mod v 7
  norm_num at h
  exact h

theorem land_128_eq_zero (v : Nat) (h : v < 128) : v &&& 128 = 0 := by
  have h2 := Nat.and_two_pow v 7
  rw [Nat.testBit_lt_two_pow (by norm_num; omega)] at h2
  norm_num at h2
  exact h2

theorem land_128_of_add (x : Nat) (h : x < 128) : (x + 128) &&& 128 = 128 := by
  have hbit : (x + 128).testBit 7 = true := by
    rw [Nat.testBit_to_div_mod]
    have hd : (x + 128) / 2 ^ 7 = 1 := by norm_num; omega
    rw [hd]
    decide
  have h2 := Nat.and_two_pow (x + 128) 7
  rw [hbit] at h2
  norm_num at h2
  exact h2

theorem lor_128_eq_add (x : Nat) (h : x < 128) : x ||| 128 = x + 128 := by
  have := lor_two_pow_mul 7 x 1 (by norm_num; omega)
  norm_num at this
  exact this

/-! ## encodeVarint structure -/

theorem encodeVarint_le (v : Nat) (h : v ≤ 127) : encodeVarint v = [v] := by
  rw [encodeVarint, dif_neg (by omega)]
  rw [land_127_eq_mod, Nat.mod_eq_of_lt (by omega)]

theorem encodeVarint_gt (v : Nat) (h : v > 127) :
    encodeVarint v = (v % 128 + 128) :: encodeVarint (v >>> 7) := by
  rw [encodeVarint, dif_pos (by omega)]
  rw [land_127_eq_mod, lor_128_eq_add _ (Nat.mod_lt _ (by norm_num))]

theorem shiftRight7_eq (v : Nat) : v >>> 7 = v / 128 := by
  rw [Nat.shiftRight_eq_div_pow]

theorem encodeVarint_lt_256 (v : Nat) : ∀ b ∈ encodeVarint v, b < 256 := by
  induction v using Nat.strong_induction_on with
  | _ v ih =>
    by_cases h : v ≤ 127
    · rw [encodeVarint_le v h]
      intro b hb
      simp at hb
      omega
    · rw [encodeVarint_gt v (by omega)]
      intro b hb
      rcases List.mem_cons.mp hb with h1 | h1
      · have := Nat.mod_lt v (y := 128) (by norm_num)
        omega
      · refine ih (v >>> 7) ?_ b h1
        rw [shiftRight7_eq]
        exact Nat.div_lt_self (by omega) (by norm_num)

theorem getByte_append (pre : List Nat) (b : Nat) (rest : List Nat) :
    getByte (pre ++ b :: rest) (pre.length : Int) = some b := by
  unfold getByte
  rw [if_pos (by positivity), Int.toNat_ofNat,
    List.getElem?_append_right (Nat.le_refl _)]
  simp

/-- Accumulation invariant of the varint read loop over an encoded varint:
starting at the position right after `pre` with accumulator `acc` occupying
the low `shift` bits, the loop accumulates exactly `acc + 2^shift * v` and
stops right after the encoded bytes.  The bound `2^28` keeps every int32
operation in the identity range. -/
theorem readVarintAux_encode (v : Nat) :
    ∀ (pre : List Nat) (acc shift : Nat),
      acc < 2 ^ shift → acc + 2 ^ shift * v < 2 ^ 28 →
      readVarintAux (pre ++ encodeVarint v) (encodeVarint v).length
          ((pre.length : Nat) : Int) ((acc : Nat) : Int) shift =
        (((acc + 2 ^ shift * v : Nat) : Int),
          ((pre.length + (encodeVarint v).length : Nat) : Int)) := by
  induction v using Nat.strong_induction_on with
  | _ v ih =>
    intro pre acc shift hacc hbound
    have hp28 : (2 : Nat) ^ 28 < 2 ^ 31 := by norm_num
    by_cases h : v ≤ 127
    · rw [encodeVarint_le v h]
      simp only [List.length_cons, List.length_nil, Nat.zero_add]
      rw [readVarintAux, getByte_append]
      simp only [Option.getD_some]
      rw [land_127_eq_mod, Nat.mod_eq_of_lt (by omega),
        land_128_eq_zero v (by omega)]
      simp only [ne_eq, not_true_eq_false, if_false]
      have hshl : jsShl ((v : Nat) : Int) shift = ((2 ^ shift * v : Nat) : Int) := by
        rcases Nat.eq_zero_or_pos v with hv0 | hv1
        · subst hv0
          simp only [Int.natCast_zero, jsShl_zero, Nat.mul_zero, Int.natCast_zero]
        · have hsb : 2 ^ shift ≤ 2 ^ shift * v := Nat.le_mul_of_pos_right _ hv1
          have hs28 : shift < 28 := by
            by_contra hcon
            have : (2 : Nat) ^ 28 ≤ 2 ^ shift := Nat.pow_le_pow_right (by norm_num) (by omega)
            omega
          exact jsShl_small v shift (by omega) (by omega)
      rw [hshl, jsOr_add acc shift v hacc (by omega)]
      simp only [Prod.mk.injEq]
      refine ⟨trivial, ?_⟩
      push_cast
      ring
    · rw [encodeVarint_gt v (by omega)]
      simp only [List.length_cons]
      rw [readVarintAux, getByte_append]
      simp only [Option.getD_some]
      have hmlt : v % 128 < 128 := Nat.mod_lt _ (by norm_num)
      rw [land_127_eq_mod, Nat.add_mod_right, Nat.mod_eq_of_lt hmlt,
        land_128_of_add _ hmlt]
      simp only [ne_eq, OfNat.ofNat_ne_zero, not_false_eq_true, if_true]
      have h7 : (2 : Nat) ^ (shift + 7) = 2 ^ shift * 128 := by
        rw [pow_add]
        norm_num
      have hs21 : shift + 7 < 28 := by
        by_contra hcon
        have hle : (2 : Nat) ^ 28 ≤ 2 ^ (shift + 7) := Nat.pow_le_pow_right (by norm_num) (by omega)
        have hv128 : 2 ^ shift * 128 ≤ 2 ^ shift * v := Nat.mul_le_mul_left _ (by omega)
        omega
      have hmle : 2 ^ shift * (v % 128) ≤ 2 ^ shift * v := Nat.mul_le_mul_left _ (Nat.mod_le _ _)
      have hshl : jsShl ((v % 128 : Nat) : Int) shift = ((2 ^ shift * (v % 128) : Nat) : Int) :=
        jsShl_small _ shift (by omega) (by omega)
      have hm127 : 2 ^ shift * (v % 128) ≤ 2 ^ shift * 127 := Nat.mul_le_mul_left _ (by omega)
      rw [hshl, jsOr_add acc shift (v % 128) hacc (by omega)]
      have hv : v % 128 + 128 * (v / 128) = v := by omega
      have expand : 2 ^ shift * v = 2 ^ shift * (v % 128) + 2 ^ (shift + 7) * (v / 128) := by
        conv_lhs => rw [← hv]
        rw [Nat.mul_add, h7, Nat.mul_assoc]
      have hacc2 : acc + 2 ^ shift * (v % 128) < 2 ^ (shift + 7) := by
        rw [h7]
        omega
      have hbound2 : acc + 2 ^ shift * (v % 128) + 2 ^ (shift + 7) * (v / 128) < 2 ^ 28 := by
        omega
      have hlist : pre ++ (v % 128 + 128) :: encodeVarint (v >>> 7) =
          (pre ++ [v % 128 + 128]) ++ encodeVarint (v >>> 7) := by
        simp
      have hpos : ((pre.length : Nat) : Int) + 1 =
          (((pre ++ [v % 128 + 128]).length : Nat) : Int) := by
        simp only [List.length_append, List.length_cons, List.length_nil]
        push_cast
        ring
      rw [hlist, hpos,
        ih (v >>> 7) (by rw [shiftRight7_eq]; exact Nat.div_lt_self (by omega) (by norm_num))
          (pre ++ [v % 128 + 128]) (acc + 2 ^ shift * (v % 128)) (shift + 7) hacc2
          (by rw [shiftRight7_eq]; exact hbound2)]
      rw [shiftRight7_eq]
      simp only [Prod.mk.injEq]
      refine ⟨?_, ?_⟩
      · congr 1
        omega
      · simp only [List.length_append, List.length_cons, List.length_nil]
        push_cast
        ring

/-! ## Hex round trip -/

theorem hexVal_digitChar (d : Nat) (h : d < 16) : hexVal (Nat.digitChar d) = some d := by
  interval_cases d <;> decide

theorem hexToBytes_toHex (bs : List Nat) (h : ∀ b ∈ bs, b < 256) :
    hexToBytes (toHex bs).data = bs := by
  induction bs with
  | nil => rfl
  | cons b rest ih =>
    have hb : b < 256 := h b (List.mem_cons_self _ _)
    have hdata : (toHex (b :: rest)).data =
        Nat.digitChar (b / 16) :: Nat.digitChar (b % 16) :: (toHex rest).data := by
      simp [toHex, hexPair]
    rw [hdata]
    simp only [hexToBytes, hexVal_digitChar (b / 16) (by omega),
      hexVal_digitChar (b % 16) (by omega)]
    rw [ih (fun x hx => h x (List.mem_cons_of_mem _ hx))]
    have hbval : 16 * (b / 16) + b % 16 = b := by omega
    rw [hbval]

/-! ## Claim C9: varint encode/parse round trip -/

/-- C9: for every field number `1 ≤ f ≤ 15` and value `v < 2^28`, parsing the
hex encoding of `pbVarint(f, v)` with `parseProtobuf` terminates and yields
exactly one field record `{field: f, type: "varint", value: v}`. -/
theorem C9_varint_roundtrip (f v : Nat) (hf1 : 1 ≤ f) (hf15 : f ≤ 15) (hv : v < 2 ^ 28) :
    ParsesTo (toHex (pbVarint f v)) [.varint f (v : Int)] := by
  refine ⟨2, ?_⟩
  have htag : (f <<< 3) ||| 0 = 8 * f := by
    simp only [Nat.or_zero, Nat.shiftLeft_eq]
    ring
  have hbytes : hexToBytes (toHex (pbVarint f v)).data = (8 * f) :: encodeVarint v := by
    rw [hexToBytes_toHex]
    · unfold pbVarint
      rw [htag]
    · intro b hb
      unfold pbVarint at hb
      rcases List.mem_cons.mp hb with h1 | h1
      · rw [h1, htag]
        omega
      · exact encodeVarint_lt_256 v b h1
  rw [hbytes]
  set e := encodeVarint v with he
  have hfn : (8 * f) >>> 3 = f := by
    rw [Nat.shiftRight_eq_div_pow]
    norm_num
  have hwt : (8 * f) &&& 7 = 0 := by
    have h7 := Nat.and_pow_two_sub_one_eq_mod (8 * f) 3
    norm_num at h7
    rw [h7]
  have hg0 : getByte ((8 * f) :: e) 0 = some (8 * f) := by
    simpa using getByte_append [] (8 * f) e
  have hrv : readVarint ((8 * f) :: e) (0 + 1) 0 0 = ((v : Int), ((1 + e.length : Nat) : Int)) := by
    unfold readVarint
    have hrem : ((((8 * f :: e).length : Nat) : Int) - (0 + 1)).toNat = e.length := by
      simp
    rw [hrem]
    have hmain := readVarintAux_encode v [8 * f] 0 0 (by norm_num) (by simpa using hv)
    simpa using hmain
  have hc1 : (0 : Int) < (((8 * f :: e).length : Nat) : Int) := by
    simp only [List.length_cons]
    push_cast
    omega
  have hc2 : ¬ (((1 + e.length : Nat) : Int) < (((8 * f :: e).length : Nat) : Int)) := by
    simp only [List.length_cons]
    push_cast
    omega
  rw [parseLoop, if_pos hc1]
  simp only [hg0, Option.getD_some, hfn, hwt, if_pos rfl, hrv]
  rw [parseLoop, if_neg hc2]
  simp

/-- C9 witness: concrete instance of `C9_varint_roundtrip`. -/
theorem C9_varint_roundtrip_witness :
    1 ≤ 1 ∧ (1 : Nat) ≤ 15 ∧ 300 < 2 ^ 28 ∧
    ParsesTo (toHex (pbVarint 1 300)) [.varint 1 (300 : Int)] :=
  ⟨by norm_num, by norm_num, by norm_num,
    C9_varint_roundtrip 1 300 (by norm_num) (by norm_num) (by norm_num)⟩

/-! ## Claim C10: parseProtobuf does not terminate on every input -/

/-- The adversarial input: field 1, wiretype 2 (length-delimited), followed
by the five varint bytes fa ff ff ff 0f, whose int32 accumulation overflows
to `-6`; `pos += len` then moves the read position back to 0 exactly. -/
def badHex : String := "0afaffffff0f"

theorem badHex_bytes : hexToBytes badHex.data = [10, 250, 255, 255, 255, 15] := by
  decide

theorem C10_step (fuel : Nat) (acc : List PBField) :
    parseLoop [10, 250, 255, 255, 255, 15] (fuel + 1) 0 acc =
      parseLoop [10, 250, 255, 255, 255, 15] fuel 0 (acc ++ [.bytes 1 "" none (-6)]) := by
  rfl

theorem C10_no_fuel_suffices (fuel : Nat) :
    ∀ acc, parseLoop [10, 250, 255, 255, 255, 15] fuel 0 acc = none := by
  induction fuel with
  | zero => intro acc; rfl
  | succ fuel ih =>
    intro acc
    rw [C10_step]
    exact ih _

/-- C10: refuted — `parseProtobuf` does not terminate on every input hex
string.  On "0afaffffff0f" (field 1, wiretype 2) the length varint
fa ff ff ff 0f accumulates under JavaScript int32 arithmetic to `-6`, and
`pos += len` moves the read position from 6 back to 0, so the loop body never
advances past position 0: one iteration maps loop state (0, fields) to
(0, fields ++ one record), the parse yields no result for any fuel, and the
source loop (which has no fuel) runs forever. -/
theorem C10_parse_diverges :
    (∀ fuel, parseLoop (hexToBytes badHex.data) (fuel + 1) 0 [] =
      parseLoop (hexToBytes badHex.data) fuel 0 [.bytes 1 "" none (-6)]) ∧
    (∀ fuel, parseLoop (hexToBytes badHex.data) fuel 0 [] = none) ∧
    ¬ ∃ r, ParsesTo badHex r := by
  have h1 : ∀ fuel acc, parseLoop (hexToBytes badHex.data) fuel 0 acc = none := by
    intro fuel acc
    rw [badHex_bytes]
    exact C10_no_fuel_suffices fuel acc
  refine ⟨?_, fun fuel => h1 fuel [], ?_⟩
  · intro fuel
    rw [badHex_bytes]
    simpa using C10_step fuel []
  · rintro ⟨r, fuel, hf⟩
    rw [h1 fuel []] at hf
    exact Option.noConfusion hf
